import Mathlib

/- Verification development for the adaptive fuzzy bounding-box smoother
   implemented in `src/src/fuzzy_bbox_smoother.py` (class `FuzzyBBoxSmoother`).

   Numeric model: the Python code computes with IEEE-754 doubles; here every
   quantity is an exact rational (ℚ).  The only non-rational primitive on the
   code's data path is `np.sqrt` inside the motion-magnitude computation, so
   the smoothing step is parametrised by an abstract square-root function
   `sqrtFn : ℚ → ℚ`; concrete instantiations use `ratSqrt`, which is exact on
   perfect squares (in particular at 0, the value exercised by all concrete
   scenarios below).

   The fuzzy-inference engine itself is provided by the third-party
   `skfuzzy.control` toolkit, which is not part of this repository; its
   behaviour is modelled from the spec (§4.1, §4.2): trapezoid/triangle
   membership evaluation, min-conjunction rule firing, per-term max
   aggregation, discrete centroid defuzzification over the 101-point alpha
   universe, and the 0.3 fallback replacing the library's exception path.
   All membership breakpoints and the 9-entry rule table are transcribed
   from the repository source (`FuzzyBBoxSmoother.__init__`, lines 19-56). -/

set_option maxHeartbeats 4000000
set_option maxRecDepth 40000

attribute [local semireducible] Rat.mul Rat.inv Rat.add Rat.sub Rat.ofScientific

/-- Triangular membership function, value 1 at the peak `b`, linear ramps on
`(a, b)` and `(b, c)`, and 0 elsewhere (including at `a` and `c` themselves,
matching the open-interval ramps of the scikit-fuzzy `trimf`; a degenerate
side with `a = b` or `b = c` contributes only the peak point). -/
def trimf (a b c x : ℚ) : ℚ :=
  if x = b then 1
  else if a < x ∧ x < b then (x - a) / (b - a)
  else if b < x ∧ x < c then (c - x) / (c - b)
  else 0

/-- Trapezoidal membership function with breakpoints `a ≤ b ≤ c ≤ d`: 0 outside
`[a, d]`, ramp `a→b`, plateau 1 on `[b, c]`, ramp `c→d`.  The shoulders reuse
`trimf`, matching the scikit-fuzzy `trapmf` construction, so a degenerate edge
(`a = b` or `c = d`) gives membership 1 at that edge point. -/
def trapmf (a b c d x : ℚ) : ℚ :=
  if x < a ∨ d < x then 0
  else if x ≤ b then trimf a b b x
  else if c ≤ x then trimf c c d x
  else 1

/-- Membership of the `motion` term `small`, breakpoints `[0, 0, 3, 8]`
(source line 24). -/
def motion_small (x : ℚ) : ℚ := trapmf 0 0 3 8 x

/-- Membership of the `motion` term `medium`, breakpoints `[5, 12, 18, 25]`
(source line 25). -/
def motion_medium (x : ℚ) : ℚ := trapmf 5 12 18 25 x

/-- Membership of the `motion` term `large`, breakpoints `[20, 40, 100, 100]`
(source line 26). -/
def motion_large (x : ℚ) : ℚ := trapmf 20 40 100 100 x

/-- Membership of the `confidence` term `low`, breakpoints `[0, 0, 0.3, 0.5]`
(source line 29). -/
def confidence_low (x : ℚ) : ℚ := trapmf 0 0 (3/10) (1/2) x

/-- Membership of the `confidence` term `medium`, breakpoints
`[0.4, 0.5, 0.6, 0.7]` (source line 30). -/
def confidence_medium (x : ℚ) : ℚ := trapmf (2/5) (1/2) (3/5) (7/10) x

/-- Membership of the `confidence` term `high`, breakpoints
`[0.6, 0.75, 1.0, 1.0]` (source line 31). -/
def confidence_high (x : ℚ) : ℚ := trapmf (3/5) (3/4) 1 1 x

/-- Membership of the `alpha` output term `very_small`, breakpoints
`[0, 0.05, 0.15]` (source line 34). -/
def alpha_very_small (x : ℚ) : ℚ := trimf 0 (1/20) (3/20) x

/-- Membership of the `alpha` output term `small`, breakpoints
`[0.1, 0.2, 0.3]` (source line 35). -/
def alpha_small (x : ℚ) : ℚ := trimf (1/10) (1/5) (3/10) x

/-- Membership of the `alpha` output term `medium`, breakpoints
`[0.25, 0.4, 0.55]` (source line 36). -/
def alpha_medium (x : ℚ) : ℚ := trimf (1/4) (2/5) (11/20) x

/-- Membership of the `alpha` output term `large`, breakpoints
`[0.5, 0.7, 0.85]` (source line 37). -/
def alpha_large (x : ℚ) : ℚ := trimf (1/2) (7/10) (17/20) x

/-- Membership of the `alpha` output term `very_large`, breakpoints
`[0.8, 0.95, 1.0]` (source line 38). -/
def alpha_very_large (x : ℚ) : ℚ := trimf (4/5) (19/20) 1 x

/-- Aggregated firing strength of the output term `very_small`: max over the
rules `small ∧ high → very_small` and `medium ∧ low → very_small`
(source lines 43, 50), each fired by min-conjunction. -/
def agg_very_small (m c : ℚ) : ℚ :=
  max (min (motion_small m) (confidence_high c))
    (min (motion_medium m) (confidence_low c))

/-- Aggregated firing strength of the output term `small`: rules
`small ∧ medium → small`, `small ∧ low → small`, `medium ∧ medium → small`
(source lines 44, 45, 49). -/
def agg_small (m c : ℚ) : ℚ :=
  max (max (min (motion_small m) (confidence_medium c))
      (min (motion_small m) (confidence_low c)))
    (min (motion_medium m) (confidence_medium c))

/-- Aggregated firing strength of the output term `medium`: rules
`medium ∧ high → medium` and `large ∧ low → medium` (source lines 48, 55). -/
def agg_medium (m c : ℚ) : ℚ :=
  max (min (motion_medium m) (confidence_high c))
    (min (motion_large m) (confidence_low c))

/-- Aggregated firing strength of the output term `large`: the single rule
`large ∧ medium → large` (source line 54). -/
def agg_large (m c : ℚ) : ℚ :=
  min (motion_large m) (confidence_medium c)

/-- Aggregated firing strength of the output term `very_large`: the single
rule `large ∧ high → very_large` (source line 53). -/
def agg_very_large (m c : ℚ) : ℚ :=
  min (motion_large m) (confidence_high c)

/-- Modelled from the spec (§4.2 step 4): the aggregate output fuzzy set of
the skfuzzy control system at a point `x` of the alpha universe — the
pointwise max, over output terms, of the term's membership clipped (min) at
its aggregated firing strength. -/
def aggregateAt (m c x : ℚ) : ℚ :=
  max (max (max (max (min (agg_very_small m c) (alpha_very_small x))
        (min (agg_small m c) (alpha_small x)))
      (min (agg_medium m c) (alpha_medium x)))
    (min (agg_large m c) (alpha_large x)))
  (min (agg_very_large m c) (alpha_very_large x))

/-- Sample point `i / 100` of the alpha universe `np.arange(0, 1.01, 0.01)`
(source line 21): 101 equally spaced points from 0 to 1. -/
def alphaGrid (i : ℕ) : ℚ := (i : ℚ) / 100

/-- Modelled from the spec (§4.2 step 4): total aggregated membership
`Σ aggregate(x)` over the discretized alpha universe. -/
def aggArea (m c : ℚ) : ℚ :=
  ∑ i ∈ Finset.range 101, aggregateAt m c (alphaGrid i)

/-- Modelled from the spec (§4.2 step 4): first moment `Σ x·aggregate(x)`
over the discretized alpha universe. -/
def aggMoment (m c : ℚ) : ℚ :=
  ∑ i ∈ Finset.range 101, alphaGrid i * aggregateAt m c (alphaGrid i)

/-- Modelled from the spec (§4.2 step 4): centroid defuzzification.  `none`
models the exception the skfuzzy library raises when the aggregate output
set has zero total membership (the division by zero that the source's
`try/except` guards against, source lines 112-119). -/
def defuzzCentroid (m c : ℚ) : Option ℚ :=
  if aggArea m c = 0 then none else some (aggMoment m c / aggArea m c)

/-- Modelled from the spec (§4.2 step 5): the complete fuzzy inference as the
source's `try/except` performs it — centroid defuzzification with fallback
`alpha = 0.3` when no rule fired (source lines 112-119). -/
def infer (m c : ℚ) : ℚ :=
  (defuzzCentroid m c).getD (3/10)

/-- Numpy-style clipping to a closed interval, `np.clip x lo hi`
(source lines 108-109). -/
def clip (x lo hi : ℚ) : ℚ := min (max x lo) hi

/-- Truncation toward zero, the semantics of Python's `int()` conversion
applied to a float (source lines 136-139): floor for non-negative values,
ceiling for negative ones. -/
def pyInt (q : ℚ) : ℤ := if q < 0 then ⌈q⌉ else ⌊q⌋

/-- Rational stand-in for `np.sqrt`, exact on ratios of perfect squares
(in particular `ratSqrt 0 = 0` and `ratSqrt 100 = 10`); used to instantiate
the abstract square-root parameter of `smooth` in concrete scenarios. -/
def ratSqrt (q : ℚ) : ℚ := (Nat.sqrt q.num.toNat : ℚ) / (Nat.sqrt q.den : ℚ)

/-- The mutable state of a `FuzzyBBoxSmoother` instance: the four fields
`prev_cx`, `prev_cy`, `prev_w`, `prev_h`, each `None` or a number
(source lines 62-66).  They are kept as four separate optional fields, as in
the source, so that the all-or-none invariant is a provable property rather
than a modelling artifact. -/
structure SmootherState where
  prev_cx : Option ℚ
  prev_cy : Option ℚ
  prev_w : Option ℚ
  prev_h : Option ℚ
  deriving DecidableEq

/-- The state set up by `FuzzyBBoxSmoother.__init__` (source lines 62-66):
all four fields are `None`. -/
def initState : SmootherState := ⟨none, none, none, none⟩

/-- `FuzzyBBoxSmoother.reset` (source lines 68-73): sets all four state
fields back to `None`. -/
def reset (_st : SmootherState) : SmootherState := ⟨none, none, none, none⟩

/-- `FuzzyBBoxSmoother.get_debug_info` (source lines 143-150): a read-only
snapshot of the four state fields. -/
def get_debug_info (st : SmootherState) :
    Option ℚ × Option ℚ × Option ℚ × Option ℚ :=
  (st.prev_cx, st.prev_cy, st.prev_w, st.prev_h)

/-- `FuzzyBBoxSmoother.smooth` (source lines 75-141), returning the updated
state together with the returned bbox.  `sqrtFn` abstracts `np.sqrt` in the
motion-magnitude computation (line 105), the only non-rational primitive on
the data path.  The source branches only on `prev_cx is None` (line 95); on
the tracking branch the remaining three fields are read assuming they are
present (Python would raise on a partially-filled state), which the model
renders with `Option.getD 0` — such states are unreachable, see the
all-or-none invariant theorem.  On the tracking branch the four returned
corners are `int()` conversions, modelled by `pyInt` and cast back to ℚ so
that both branches return the same type of 4-tuple. -/
def smooth (sqrtFn : ℚ → ℚ) (st : SmootherState) (bbox : ℚ × ℚ × ℚ × ℚ)
    (conf : ℚ) : SmootherState × (ℚ × ℚ × ℚ × ℚ) :=
  let (x1, y1, x2, y2) := bbox
  let cx := (x1 + x2) / 2
  let cy := (y1 + y2) / 2
  let w := x2 - x1
  let h := y2 - y1
  match st.prev_cx with
  | none => (⟨some cx, some cy, some w, some h⟩, bbox)
  | some pcx =>
    let pcy := st.prev_cy.getD 0
    let pw := st.prev_w.getD 0
    let ph := st.prev_h.getD 0
    let dx := cx - pcx
    let dy := cy - pcy
    let motion_magnitude := clip (sqrtFn (dx ^ 2 + dy ^ 2)) 0 100
    let conf2 := clip conf 0 1
    let alpha := infer motion_magnitude conf2
    let cx_smooth := pcx + alpha * (cx - pcx)
    let cy_smooth := pcy + alpha * (cy - pcy)
    let w_smooth := pw + (1 / 2) * (w - pw)
    let h_smooth := ph + (1 / 2) * (h - ph)
    (⟨some cx_smooth, some cy_smooth, some w_smooth, some h_smooth⟩,
      ((pyInt (cx_smooth - w_smooth / 2) : ℚ), (pyInt (cy_smooth - h_smooth / 2) : ℚ),
        (pyInt (cx_smooth + w_smooth / 2) : ℚ), (pyInt (cy_smooth + h_smooth / 2) : ℚ)))

/-- Corner reconstruction as the spec states it.  Modelled from the spec
(§4.3 h): `x1 = round(new_cx - new_w/2)` and so on, "rounding to integer
pixel coordinates", with `round` the round-to-nearest function; kept as a
separate definition to compare against the `int()` truncation the source
actually performs. -/
def specCorners (cx cy w h : ℚ) : ℤ × ℤ × ℤ × ℤ :=
  (round (cx - w / 2), round (cy - h / 2), round (cx + w / 2), round (cy + h / 2))

/-- A triangular membership value is never negative, for any breakpoints:
each ramp branch carries its own ordering facts in the branch condition. -/
theorem trimf_nonneg (a b c x : ℚ) : 0 ≤ trimf a b c x := by
  unfold trimf
  split_ifs with h1 h2 h3
  · norm_num
  · exact le_of_lt (div_pos (by linarith [h2.1]) (by linarith [h2.1, h2.2]))
  · exact le_of_lt (div_pos (by linarith [h3.2]) (by linarith [h3.1, h3.2]))
  · exact le_rfl

/-- A triangular membership value never exceeds 1, for any breakpoints. -/
theorem trimf_le_one (a b c x : ℚ) : trimf a b c x ≤ 1 := by
  unfold trimf
  split_ifs with h1 h2 h3
  · exact le_rfl
  · rw [div_le_one (by linarith [h2.1, h2.2])]
    linarith [h2.2]
  · rw [div_le_one (by linarith [h3.1, h3.2])]
    linarith [h3.1]
  · norm_num

/-- A trapezoidal membership value is never negative. -/
theorem trapmf_nonneg (a b c d x : ℚ) : 0 ≤ trapmf a b c d x := by
  unfold trapmf
  split_ifs
  · exact le_rfl
  · exact trimf_nonneg a b b x
  · exact trimf_nonneg c c d x
  · norm_num

/-- A trapezoidal membership value never exceeds 1. -/
theorem trapmf_le_one (a b c d x : ℚ) : trapmf a b c d x ≤ 1 := by
  unfold trapmf
  split_ifs
  · norm_num
  · exact trimf_le_one a b b x
  · exact trimf_le_one c c d x
  · exact le_rfl

/-- Every aggregated rule strength is non-negative: min-conjunctions of
membership values, combined by max. -/
theorem agg_very_small_nonneg (m c : ℚ) : 0 ≤ agg_very_small m c :=
  le_max_of_le_left (le_min (trapmf_nonneg _ _ _ _ _) (trapmf_nonneg _ _ _ _ _))

/-- Non-negativity of the aggregated strength of the `small` output term. -/
theorem agg_small_nonneg (m c : ℚ) : 0 ≤ agg_small m c :=
  le_max_of_le_left (le_max_of_le_left
    (le_min (trapmf_nonneg _ _ _ _ _) (trapmf_nonneg _ _ _ _ _)))

/-- Non-negativity of the aggregated strength of the `medium` output term. -/
theorem agg_medium_nonneg (m c : ℚ) : 0 ≤ agg_medium m c :=
  le_max_of_le_left (le_min (trapmf_nonneg _ _ _ _ _) (trapmf_nonneg _ _ _ _ _))

/-- Non-negativity of the aggregated strength of the `large` output term. -/
theorem agg_large_nonneg (m c : ℚ) : 0 ≤ agg_large m c :=
  le_min (trapmf_nonneg _ _ _ _ _) (trapmf_nonneg _ _ _ _ _)

/-- Non-negativity of the aggregated strength of the `very_large` output
term. -/
theorem agg_very_large_nonneg (m c : ℚ) : 0 ≤ agg_very_large m c :=
  le_min (trapmf_nonneg _ _ _ _ _) (trapmf_nonneg _ _ _ _ _)

/-- The aggregate output fuzzy set is non-negative at every point. -/
theorem aggregateAt_nonneg (m c x : ℚ) : 0 ≤ aggregateAt m c x := by
  unfold aggregateAt
  exact le_max_of_le_left (le_max_of_le_left (le_max_of_le_left
    (le_max_of_le_left (le_min (agg_very_small_nonneg m c) (trimf_nonneg _ _ _ _)))))

/-- The aggregate output fuzzy set is bounded by 1 at every point: each
clipped term is bounded by its (triangular) membership value. -/
theorem aggregateAt_le_one (m c x : ℚ) : aggregateAt m c x ≤ 1 := by
  unfold aggregateAt
  exact max_le (max_le (max_le (max_le
    (le_trans (min_le_right _ _) (trimf_le_one _ _ _ _))
    (le_trans (min_le_right _ _) (trimf_le_one _ _ _ _)))
    (le_trans (min_le_right _ _) (trimf_le_one _ _ _ _)))
    (le_trans (min_le_right _ _) (trimf_le_one _ _ _ _)))
    (le_trans (min_le_right _ _) (trimf_le_one _ _ _ _))

/-- Sample points of the alpha universe are non-negative. -/
theorem alphaGrid_nonneg (i : ℕ) : 0 ≤ alphaGrid i := by
  unfold alphaGrid
  positivity

/-- Sample points of the alpha universe are bounded by 1. -/
theorem alphaGrid_le_one {i : ℕ} (h : i < 101) : alphaGrid i ≤ 1 := by
  unfold alphaGrid
  rw [div_le_one (by norm_num)]
  exact_mod_cast Nat.lt_succ_iff.mp h

/-- The total aggregated membership is non-negative. -/
theorem aggArea_nonneg (m c : ℚ) : 0 ≤ aggArea m c :=
  Finset.sum_nonneg fun i _ => aggregateAt_nonneg m c (alphaGrid i)

/-- The first moment of the aggregate set is non-negative. -/
theorem aggMoment_nonneg (m c : ℚ) : 0 ≤ aggMoment m c :=
  Finset.sum_nonneg fun i _ =>
    mul_nonneg (alphaGrid_nonneg i) (aggregateAt_nonneg m c (alphaGrid i))

/-- The first moment is bounded by the total membership, because every
sample point of the alpha universe lies in [0, 1]. -/
theorem aggMoment_le_aggArea (m c : ℚ) : aggMoment m c ≤ aggArea m c :=
  Finset.sum_le_sum fun i hi =>
    mul_le_of_le_one_left (aggregateAt_nonneg m c (alphaGrid i))
      (alphaGrid_le_one (Finset.mem_range.mp hi))

/-- The inferred alpha is never negative: the centroid is a quotient of
non-negative sums, and the fallback constant 0.3 is non-negative. -/
theorem infer_nonneg (m c : ℚ) : 0 ≤ infer m c := by
  unfold infer defuzzCentroid
  split_ifs with h
  · norm_num
  · simpa using div_nonneg (aggMoment_nonneg m c) (aggArea_nonneg m c)

/-- The inferred alpha never exceeds 1: the moment is bounded by the area,
and the fallback constant 0.3 is below 1. -/
theorem infer_le_one (m c : ℚ) : infer m c ≤ 1 := by
  unfold infer defuzzCentroid
  split_ifs with h
  · norm_num
  · have hpos : 0 < aggArea m c := lt_of_le_of_ne (aggArea_nonneg m c) (Ne.symm h)
    simpa using (div_le_one hpos).mpr (aggMoment_le_aggArea m c)

/-- Truncation toward zero is monotone. -/
theorem pyInt_mono {q r : ℚ} (h : q ≤ r) : pyInt q ≤ pyInt r := by
  unfold pyInt
  split_ifs with h1 h2 h2
  · exact Int.ceil_le_ceil h
  · have hq : ⌈q⌉ ≤ (0 : ℤ) := Int.ceil_le.mpr (by exact_mod_cast le_of_lt h1)
    have hr : 0 ≤ ⌊r⌋ := Int.floor_nonneg.mpr (not_lt.mp h2)
    omega
  · exact absurd (lt_of_le_of_lt h h2) h1
  · exact Int.floor_mono h

/-- Truncation toward zero never increases the absolute value. -/
theorem abs_pyInt_le (q : ℚ) : |(pyInt q : ℚ)| ≤ |q| := by
  unfold pyInt
  split_ifs with h
  · have h1 : q ≤ (⌈q⌉ : ℚ) := Int.le_ceil q
    have h2 : ((⌈q⌉ : ℤ) : ℚ) ≤ 0 := by
      exact_mod_cast Int.ceil_le.mpr (show q ≤ ((0 : ℤ) : ℚ) by exact_mod_cast le_of_lt h)
    rw [abs_of_nonpos h2, abs_of_nonpos (le_of_lt h)]
    linarith
  · have h0 : 0 ≤ q := not_lt.mp h
    have h1 : ((⌊q⌋ : ℤ) : ℚ) ≤ q := Int.floor_le q
    have h2 : (0 : ℚ) ≤ ((⌊q⌋ : ℤ) : ℚ) := by exact_mod_cast Int.floor_nonneg.mpr h0
    rw [abs_of_nonneg h2, abs_of_nonneg h0]
    exact h1

/-- An exponential blend with weight in [0, 1] stays within any common
bound of its two endpoints. -/
theorem blend_abs_le {a b w M : ℚ} (h0 : 0 ≤ w) (h1 : w ≤ 1)
    (ha : |a| ≤ M) (hb : |b| ≤ M) : |a + w * (b - a)| ≤ M := by
  have he : a + w * (b - a) = (1 - w) * a + w * b := by ring
  rw [he]
  calc |(1 - w) * a + w * b| ≤ |(1 - w) * a| + |w * b| := abs_add _ _
    _ = (1 - w) * |a| + w * |b| := by
        rw [abs_mul, abs_mul, abs_of_nonneg (by linarith), abs_of_nonneg h0]
    _ ≤ (1 - w) * M + w * M :=
        add_le_add (mul_le_mul_of_nonneg_left ha (by linarith))
          (mul_le_mul_of_nonneg_left hb h0)
    _ = M := by ring

/-- C2: the first call to `smooth` after construction (state `initState`) or
after `reset()` returns the input bbox unchanged, for every bbox, every
confidence and every square-root function, and stores the raw center
`((x1+x2)/2, (y1+y2)/2)` and size `(x2-x1, y2-y1)` as the new state, with no
smoothing and no clamping applied. -/
theorem smooth_cold_start_identity (sqrtFn : ℚ → ℚ) (st : SmootherState)
    (x1 y1 x2 y2 conf : ℚ) :
    smooth sqrtFn initState (x1, y1, x2, y2) conf =
      (⟨some ((x1 + x2) / 2), some ((y1 + y2) / 2), some (x2 - x1), some (y2 - y1)⟩,
        (x1, y1, x2, y2)) ∧
    smooth sqrtFn (reset st) (x1, y1, x2, y2) conf =
      (⟨some ((x1 + x2) / 2), some ((y1 + y2) / 2), some (x2 - x1), some (y2 - y1)⟩,
        (x1, y1, x2, y2)) :=
  ⟨rfl, rfl⟩

/-- C1, counterexample: the claim says the returned corners are
`round(new_cx - new_w/2)` and so on.  At the Tracking-state call with
previous state (center (0,0), size (1,1)) and bbox (-0.9, -0.5, 0.9, 0.5)
with confidence 0.9, the new (blended) center is (0,0) and the new size is
(7/5, 1) — the first conjunct pins these exact values — so the claimed first
corner is `round(0 - (7/5)/2) = round(-0.7) = -1`, but the code's `int()`
truncation returns 0. -/
theorem smooth_round_corner_counterexample :
    (smooth ratSqrt ⟨some 0, some 0, some 1, some 1⟩
        (-(9/10), -(1/2), 9/10, 1/2) (9/10)).1 = ⟨some 0, some 0, some (7/5), some 1⟩ ∧
    (smooth ratSqrt ⟨some 0, some 0, some 1, some 1⟩
        (-(9/10), -(1/2), 9/10, 1/2) (9/10)).2.1 = 0 ∧
    ((specCorners 0 0 (7/5) 1).1 : ℚ) = -1 := by
  decide

/-- C1, amended: for every call to `smooth` in the Tracking state, the new
center is `state.center + alpha * (raw_center - state.center)` per axis with
`alpha = infer(clipped motion magnitude, clipped confidence)`, the new size
is `state.size + 0.5 * (raw_size - state.size)` per axis, and the returned
corners are `new_cx - new_w/2`, `new_cy - new_h/2`, `new_cx + new_w/2`,
`new_cy + new_h/2` converted to integer pixel coordinates by truncation
toward zero (Python `int()`), not by rounding to nearest. -/
theorem smooth_tracking_blend_trunc (sqrtFn : ℚ → ℚ)
    (pcx pcy pw ph x1 y1 x2 y2 conf : ℚ) :
    smooth sqrtFn ⟨some pcx, some pcy, some pw, some ph⟩ (x1, y1, x2, y2) conf =
      (let cx := (x1 + x2) / 2
       let cy := (y1 + y2) / 2
       let alpha := infer (clip (sqrtFn ((cx - pcx) ^ 2 + (cy - pcy) ^ 2)) 0 100)
         (clip conf 0 1)
       let ncx := pcx + alpha * (cx - pcx)
       let ncy := pcy + alpha * (cy - pcy)
       let nw := pw + (1 / 2) * ((x2 - x1) - pw)
       let nh := ph + (1 / 2) * ((y2 - y1) - ph)
       (⟨some ncx, some ncy, some nw, some nh⟩,
         ((pyInt (ncx - nw / 2) : ℚ), (pyInt (ncy - nh / 2) : ℚ),
          (pyInt (ncx + nw / 2) : ℚ), (pyInt (ncy + nh / 2) : ℚ)))) :=
  rfl

/-- C10: after every Tracking-state call, the stored state holds the exact
unrounded blended center and size, and `get_debug_info` exposes exactly
those values; integer conversion affects only the returned tuple.  The last
conjunct demonstrates the stated consequence at a concrete call: the stored
width is 29/10 while the width recomputed from the returned bbox is 2, so
the rounding error is not fed back into the state. -/
theorem tracking_state_holds_unrounded_values :
    (∀ (sqrtFn : ℚ → ℚ) (pcx pcy pw ph x1 y1 x2 y2 conf : ℚ),
      (smooth sqrtFn ⟨some pcx, some pcy, some pw, some ph⟩ (x1, y1, x2, y2) conf).1 =
        (let cx := (x1 + x2) / 2
         let cy := (y1 + y2) / 2
         let alpha := infer (clip (sqrtFn ((cx - pcx) ^ 2 + (cy - pcy) ^ 2)) 0 100)
           (clip conf 0 1)
         ⟨some (pcx + alpha * (cx - pcx)), some (pcy + alpha * (cy - pcy)),
          some (pw + (1 / 2) * ((x2 - x1) - pw)), some (ph + (1 / 2) * ((y2 - y1) - ph))⟩) ∧
      get_debug_info
          (smooth sqrtFn ⟨some pcx, some pcy, some pw, some ph⟩ (x1, y1, x2, y2) conf).1 =
        (let cx := (x1 + x2) / 2
         let cy := (y1 + y2) / 2
         let alpha := infer (clip (sqrtFn ((cx - pcx) ^ 2 + (cy - pcy) ^ 2)) 0 100)
           (clip conf 0 1)
         (some (pcx + alpha * (cx - pcx)), some (pcy + alpha * (cy - pcy)),
          some (pw + (1 / 2) * ((x2 - x1) - pw)), some (ph + (1 / 2) * ((y2 - y1) - ph))))) ∧
    ((smooth ratSqrt ⟨some 0, some 0, some 2, some 2⟩
        (-(19/10), -1, 19/10, 1) (9/10)).1.prev_w = some (29/10) ∧
      (smooth ratSqrt ⟨some 0, some 0, some 2, some 2⟩
          (-(19/10), -1, 19/10, 1) (9/10)).2.2.2.1 -
        (smooth ratSqrt ⟨some 0, some 0, some 2, some 2⟩
          (-(19/10), -1, 19/10, 1) (9/10)).2.1 = 2) :=
  ⟨fun _ _ _ _ _ _ _ _ _ _ => ⟨rfl, rfl⟩, by decide⟩

/-- C3: for every motion magnitude in [0, 100] and every confidence in
[0, 1], the fuzzy inference (fuzzification, min-conjunction rule firing, max
aggregation, centroid defuzzification over the 101-point alpha universe,
with the 0.3 fallback) returns an alpha in [0, 1]. -/
theorem infer_alpha_in_unit_interval (m c : ℚ) (_hm0 : 0 ≤ m) (_hm1 : m ≤ 100)
    (_hc0 : 0 ≤ c) (_hc1 : c ≤ 1) : 0 ≤ infer m c ∧ infer m c ≤ 1 :=
  ⟨infer_nonneg m c, infer_le_one m c⟩

/-- Witness for C3 at motion 50, confidence 1/2. -/
theorem infer_alpha_in_unit_interval_witness :
    ((0 : ℚ) ≤ 50 ∧ (50 : ℚ) ≤ 100 ∧ (0 : ℚ) ≤ 1/2 ∧ (1 : ℚ)/2 ≤ 1) ∧
    (0 ≤ infer 50 (1/2) ∧ infer 50 (1/2) ≤ 1) :=
  ⟨⟨by decide, by decide, by decide, by decide⟩,
    infer_alpha_in_unit_interval 50 (1/2) (by decide) (by decide) (by decide) (by decide)⟩

/-- C4: whenever no rule fires with nonzero strength — each of the nine
rule firing strengths (min-conjunction of the rule's two antecedent
membership degrees) is zero — the total aggregated membership is zero and
inference returns the fallback alpha = 0.3 exactly, with no division
performed.  (Within the clamped domains the term supports cover everything,
so the hypothesis is realizable only outside them; the theorem holds for
all inputs.) -/
theorem infer_zero_firing_fallback (m c : ℚ)
    (h1 : min (motion_small m) (confidence_high c) = 0)
    (h2 : min (motion_small m) (confidence_medium c) = 0)
    (h3 : min (motion_small m) (confidence_low c) = 0)
    (h4 : min (motion_medium m) (confidence_high c) = 0)
    (h5 : min (motion_medium m) (confidence_medium c) = 0)
    (h6 : min (motion_medium m) (confidence_low c) = 0)
    (h7 : min (motion_large m) (confidence_high c) = 0)
    (h8 : min (motion_large m) (confidence_medium c) = 0)
    (h9 : min (motion_large m) (confidence_low c) = 0) :
    aggArea m c = 0 ∧ infer m c = 3/10 := by
  have hvs : agg_very_small m c = 0 := by
    unfold agg_very_small
    rw [h1, h6]
    exact max_self 0
  have hs : agg_small m c = 0 := by
    unfold agg_small
    rw [h2, h3, h5]
    simp
  have hm : agg_medium m c = 0 := by
    unfold agg_medium
    rw [h4, h9]
    exact max_self 0
  have hl : agg_large m c = 0 := by
    unfold agg_large
    exact h8
  have hvl : agg_very_large m c = 0 := by
    unfold agg_very_large
    exact h7
  have hagg : ∀ x : ℚ, aggregateAt m c x = 0 := by
    intro x
    unfold aggregateAt
    rw [hvs, hs, hm, hl, hvl]
    have a1 : (0 : ℚ) ≤ alpha_very_small x := trimf_nonneg _ _ _ _
    have a2 : (0 : ℚ) ≤ alpha_small x := trimf_nonneg _ _ _ _
    have a3 : (0 : ℚ) ≤ alpha_medium x := trimf_nonneg _ _ _ _
    have a4 : (0 : ℚ) ≤ alpha_large x := trimf_nonneg _ _ _ _
    have a5 : (0 : ℚ) ≤ alpha_very_large x := trimf_nonneg _ _ _ _
    rw [min_eq_left a1, min_eq_left a2, min_eq_left a3, min_eq_left a4, min_eq_left a5]
    simp
  have harea : aggArea m c = 0 := by
    unfold aggArea
    exact Finset.sum_eq_zero fun i _ => hagg (alphaGrid i)
  refine ⟨harea, ?_⟩
  unfold infer defuzzCentroid
  rw [if_pos harea]
  rfl

/-- Witness for C4 at motion 200 (outside every motion term support) and
confidence 1/2. -/
theorem infer_zero_firing_fallback_witness :
    (min (motion_small 200) (confidence_high (1/2)) = 0 ∧
      min (motion_small 200) (confidence_medium (1/2)) = 0 ∧
      min (motion_small 200) (confidence_low (1/2)) = 0 ∧
      min (motion_medium 200) (confidence_high (1/2)) = 0 ∧
      min (motion_medium 200) (confidence_medium (1/2)) = 0 ∧
      min (motion_medium 200) (confidence_low (1/2)) = 0 ∧
      min (motion_large 200) (confidence_high (1/2)) = 0 ∧
      min (motion_large 200) (confidence_medium (1/2)) = 0 ∧
      min (motion_large 200) (confidence_low (1/2)) = 0) ∧
    (aggArea 200 (1/2) = 0 ∧ infer 200 (1/2) = 3/10) :=
  ⟨⟨by decide, by decide, by decide, by decide, by decide, by decide, by decide,
      by decide, by decide⟩,
    infer_zero_firing_fallback 200 (1/2) (by decide) (by decide) (by decide)
      (by decide) (by decide) (by decide) (by decide) (by decide) (by decide)⟩

/-- C5: at motion magnitude 0 and confidence 0.9 the inferred alpha is at
most 0.2 (the exact value is 1/15). -/
theorem infer_no_motion_low_alpha : infer 0 (9/10) ≤ 1/5 := by
  decide

/-- C6: at motion magnitude 90 and confidence 0.9 the inferred alpha is at
least 0.8 (the exact value is 11/12). -/
theorem infer_fast_confident_high_alpha : (4/5 : ℚ) ≤ infer 90 (9/10) := by
  decide

/-- Helper for C7: a center/half-size combination stays within twice the
common input bound. -/
theorem corner_abs_le {u v M : ℚ} (hu : |u| ≤ M) (hv : |v| ≤ 2 * M) :
    |u - v / 2| ≤ 2 * M ∧ |u + v / 2| ≤ 2 * M := by
  rw [abs_le] at hu hv
  constructor <;> (rw [abs_le]; constructor <;> linarith)

/-- C7: `smooth` is a total function — for every state, bbox, confidence
and square-root model it returns four numbers — and those numbers cannot
blow up: whatever bound `M` dominates the stored state and the input
coordinates also gives the bound `2M` on all four returned coordinates (the
blend weights lie in [0, 1] and truncation never increases magnitude), so
the output is always finite. -/
theorem smooth_output_bounded (sqrtFn : ℚ → ℚ) (st : SmootherState)
    (x1 y1 x2 y2 conf M : ℚ)
    (hpcx : |st.prev_cx.getD 0| ≤ M) (hpcy : |st.prev_cy.getD 0| ≤ M)
    (hpw : |st.prev_w.getD 0| ≤ M) (hph : |st.prev_h.getD 0| ≤ M)
    (hx1 : |x1| ≤ M) (hy1 : |y1| ≤ M) (hx2 : |x2| ≤ M) (hy2 : |y2| ≤ M) :
    |(smooth sqrtFn st (x1, y1, x2, y2) conf).2.1| ≤ 2 * M ∧
    |(smooth sqrtFn st (x1, y1, x2, y2) conf).2.2.1| ≤ 2 * M ∧
    |(smooth sqrtFn st (x1, y1, x2, y2) conf).2.2.2.1| ≤ 2 * M ∧
    |(smooth sqrtFn st (x1, y1, x2, y2) conf).2.2.2.2| ≤ 2 * M := by
  have hM : 0 ≤ M := le_trans (abs_nonneg x1) hx1
  obtain ⟨opcx, opcy, opw, oph⟩ := st
  rw [abs_le] at hx1 hy1 hx2 hy2
  cases opcx with
  | none =>
    simp only [smooth]
    refine ⟨?_, ?_, ?_, ?_⟩ <;> (rw [abs_le]; constructor <;> linarith)
  | some pcx =>
    simp only [Option.getD_some] at hpcx
    simp only [smooth, Option.getD]
    set pcy := (opcy.getD 0 : ℚ) with hpcydef
    set pw := (opw.getD 0 : ℚ) with hpwdef
    set ph := (oph.getD 0 : ℚ) with hphdef
    set al := infer
      (clip (sqrtFn (((x1 + x2) / 2 - pcx) ^ 2 + ((y1 + y2) / 2 - pcy) ^ 2)) 0 100)
      (clip conf 0 1) with haldef
    have ha0 : 0 ≤ al := infer_nonneg _ _
    have ha1 : al ≤ 1 := infer_le_one _ _
    have hcx : |(x1 + x2) / 2| ≤ M := by
      rw [abs_le]
      constructor <;> linarith
    have hcy : |(y1 + y2) / 2| ≤ M := by
      rw [abs_le]
      constructor <;> linarith
    have hcxs : |pcx + al * ((x1 + x2) / 2 - pcx)| ≤ M :=
      blend_abs_le ha0 ha1 hpcx hcx
    have hcys : |pcy + al * ((y1 + y2) / 2 - pcy)| ≤ M :=
      blend_abs_le ha0 ha1 hpcy hcy
    have hw2 : |x2 - x1| ≤ 2 * M := by
      rw [abs_le]
      constructor <;> linarith
    have hh2 : |y2 - y1| ≤ 2 * M := by
      rw [abs_le]
      constructor <;> linarith
    have hpw2 : |pw| ≤ 2 * M := le_trans hpw (by linarith)
    have hph2 : |ph| ≤ 2 * M := le_trans hph (by linarith)
    have hws : |pw + (1 / 2) * ((x2 - x1) - pw)| ≤ 2 * M :=
      blend_abs_le (by norm_num) (by norm_num) hpw2 hw2
    have hhs : |ph + (1 / 2) * ((y2 - y1) - ph)| ≤ 2 * M :=
      blend_abs_le (by norm_num) (by norm_num) hph2 hh2
    obtain ⟨hxlo, hxhi⟩ := corner_abs_le hcxs hws
    obtain ⟨hylo, hyhi⟩ := corner_abs_le hcys hhs
    exact ⟨le_trans (abs_pyInt_le _) hxlo, le_trans (abs_pyInt_le _) hylo,
      le_trans (abs_pyInt_le _) hxhi, le_trans (abs_pyInt_le _) hyhi⟩

/-- Witness for C7 on a Tracking state bounded by M = 10. -/
theorem smooth_output_bounded_witness :
    (|(SmootherState.mk (some 1) (some 2) (some 3) (some 4)).prev_cx.getD 0| ≤ (10 : ℚ) ∧
      |(1 : ℚ)| ≤ 10 ∧ |(2 : ℚ)| ≤ 10 ∧ |(3 : ℚ)| ≤ 10 ∧ |(4 : ℚ)| ≤ 10) ∧
    (|(smooth ratSqrt ⟨some 1, some 2, some 3, some 4⟩ (1, 2, 3, 4) (1/2)).2.1| ≤ 2 * 10 ∧
      |(smooth ratSqrt ⟨some 1, some 2, some 3, some 4⟩ (1, 2, 3, 4) (1/2)).2.2.1| ≤ 2 * 10 ∧
      |(smooth ratSqrt ⟨some 1, some 2, some 3, some 4⟩ (1, 2, 3, 4) (1/2)).2.2.2.1| ≤ 2 * 10 ∧
      |(smooth ratSqrt ⟨some 1, some 2, some 3, some 4⟩ (1, 2, 3, 4) (1/2)).2.2.2.2| ≤ 2 * 10) :=
  ⟨⟨by decide, by decide, by decide, by decide, by decide⟩,
    smooth_output_bounded ratSqrt ⟨some 1, some 2, some 3, some 4⟩ 1 2 3 4 (1/2) 10
      (by decide) (by decide) (by decide) (by decide) (by decide) (by decide)
      (by decide) (by decide)⟩

/-- The all-or-none shape of a smoother state: the four optional fields are
either all absent or all present. -/
def allOrNone (st : SmootherState) : Prop :=
  (st.prev_cx = none ∧ st.prev_cy = none ∧ st.prev_w = none ∧ st.prev_h = none) ∨
  (st.prev_cx.isSome = true ∧ st.prev_cy.isSome = true ∧
    st.prev_w.isSome = true ∧ st.prev_h.isSome = true)

/-- States reachable from construction by any sequence of `smooth` and
`reset` calls, with arbitrary bboxes, confidences and square-root models. -/
inductive Reachable : SmootherState → Prop where
  | init : Reachable initState
  | reset_step (st : SmootherState) : Reachable st → Reachable (reset st)
  | smooth_step (st : SmootherState) (sqrtFn : ℚ → ℚ) (bbox : ℚ × ℚ × ℚ × ℚ)
      (conf : ℚ) : Reachable st → Reachable (smooth sqrtFn st bbox conf).1

/-- C8: after every sequence of `smooth` and `reset` calls starting from
construction, the four state fields are either all absent or all present;
no operation leaves the state partially initialized. -/
theorem reachable_state_all_or_none (st : SmootherState) (h : Reachable st) :
    allOrNone st := by
  induction h with
  | init => exact Or.inl ⟨rfl, rfl, rfl, rfl⟩
  | reset_step st' _ _ => exact Or.inl ⟨rfl, rfl, rfl, rfl⟩
  | smooth_step st' sqrtFn bbox conf _ _ =>
    obtain ⟨bx1, by1, bx2, by2⟩ := bbox
    obtain ⟨opcx, opcy, opw, oph⟩ := st'
    cases opcx with
    | none => exact Or.inr ⟨rfl, rfl, rfl, rfl⟩
    | some pcx => exact Or.inr ⟨rfl, rfl, rfl, rfl⟩

/-- Witness for C8 at the freshly constructed state. -/
theorem reachable_state_all_or_none_witness :
    Reachable initState ∧ allOrNone initState :=
  ⟨Reachable.init, reachable_state_all_or_none initState Reachable.init⟩

/-- States reachable from construction when every processed bbox is
well-formed (`x1 ≤ x2` and `y1 ≤ y2`). -/
inductive ReachableWF : SmootherState → Prop where
  | init : ReachableWF initState
  | reset_step (st : SmootherState) : ReachableWF st → ReachableWF (reset st)
  | smooth_step (st : SmootherState) (sqrtFn : ℚ → ℚ) (x1 y1 x2 y2 conf : ℚ) :
      ReachableWF st → x1 ≤ x2 → y1 ≤ y2 →
      ReachableWF (smooth sqrtFn st (x1, y1, x2, y2) conf).1

/-- Helper for C9: along well-formed call sequences the stored width and
height stay non-negative. -/
theorem reachableWF_sizes_nonneg (st : SmootherState) (h : ReachableWF st) :
    0 ≤ st.prev_w.getD 0 ∧ 0 ≤ st.prev_h.getD 0 := by
  induction h with
  | init => exact ⟨le_rfl, le_rfl⟩
  | reset_step st' _ _ => exact ⟨le_rfl, le_rfl⟩
  | smooth_step st' sqrtFn x1 y1 x2 y2 conf _ hx hy ih =>
    obtain ⟨opcx, opcy, opw, oph⟩ := st'
    obtain ⟨ihw, ihh⟩ := ih
    cases opcx with
    | none =>
      simp only [smooth, Option.getD_some]
      constructor <;> linarith
    | some pcx =>
      simp only [Option.getD] at ihw ihh
      simp only [smooth, Option.getD_some]
      constructor <;> (simp only [Option.getD] at *; linarith)

/-- C9: along every call sequence whose input bboxes are all well-formed,
the stored width and height are non-negative at every reachable state, and
the bbox returned by the next `smooth` call is itself well-formed (returned
`x1 ≤ x2` and `y1 ≤ y2`). -/
theorem smooth_wellformed_output (st : SmootherState) (sqrtFn : ℚ → ℚ)
    (x1 y1 x2 y2 conf : ℚ) (h : ReachableWF st) (hx : x1 ≤ x2) (hy : y1 ≤ y2) :
    (0 ≤ st.prev_w.getD 0 ∧ 0 ≤ st.prev_h.getD 0) ∧
    (smooth sqrtFn st (x1, y1, x2, y2) conf).2.1 ≤
      (smooth sqrtFn st (x1, y1, x2, y2) conf).2.2.2.1 ∧
    (smooth sqrtFn st (x1, y1, x2, y2) conf).2.2.1 ≤
      (smooth sqrtFn st (x1, y1, x2, y2) conf).2.2.2.2 := by
  obtain ⟨hw, hh⟩ := reachableWF_sizes_nonneg st h
  obtain ⟨opcx, opcy, opw, oph⟩ := st
  refine ⟨⟨hw, hh⟩, ?_⟩
  cases opcx with
  | none =>
    simp only [smooth]
    exact ⟨hx, hy⟩
  | some pcx =>
    simp only [Option.getD] at hw hh
    simp only [smooth, Option.getD]
    constructor
    · exact_mod_cast Int.cast_le.mpr (pyInt_mono (by linarith))
    · exact_mod_cast Int.cast_le.mpr (pyInt_mono (by linarith))

/-- Witness for C9 at the freshly constructed state and the well-formed
bbox (0, 0, 2, 2). -/
theorem smooth_wellformed_output_witness :
    (ReachableWF initState ∧ (0 : ℚ) ≤ 2) ∧
    ((0 ≤ initState.prev_w.getD 0 ∧ 0 ≤ initState.prev_h.getD 0) ∧
      (smooth ratSqrt initState (0, 0, 2, 2) (1/2)).2.1 ≤
        (smooth ratSqrt initState (0, 0, 2, 2) (1/2)).2.2.2.1 ∧
      (smooth ratSqrt initState (0, 0, 2, 2) (1/2)).2.2.1 ≤
        (smooth ratSqrt initState (0, 0, 2, 2) (1/2)).2.2.2.2) :=
  ⟨⟨ReachableWF.init, by decide⟩,
    smooth_wellformed_output initState ratSqrt 0 0 2 2 (1/2) ReachableWF.init
      (by decide) (by decide)⟩
